import Mathlib

/-!
Shallow embedding of the fixed-capacity open-addressing hash map with linear
probing and tombstone deletion from `src/lib.rs` (`CustomHashMap`, keys and
values of type `u8`).

Keys and values are bytes in the source; the algorithms apply only equality
tests to them and compute `key as usize % capacity`, never any wrapping
arithmetic, so bytes are embedded as `Nat` (every theorem below instantiated
at values `< 256` is a statement about the byte-typed source program).

Each `while current_index < self.capacity` loop is embedded as a
structurally recursive function over a fuel argument; the public operation
passes `capacity` as the fuel, so the fuel can run out only when
`current_index` has already reached `capacity`, i.e. exactly when the source
loop exits.  This keeps every definition computable by `rfl`/`decide`.

`entries[current_hash]` reads are embedded with `List.getD` (the checked
variants below use `List.get?` and return `none` where the source program
would panic: an out-of-bounds index, a `% 0` in `hash`, or a `usize`
underflow in `size -= 1`).
-/

inductive Slot where
  | Vacant : Slot
  | Deleted : Slot
  | Occupied (key : Nat) (value : Nat) : Slot

deriving instance DecidableEq for Slot

structure CustomHashMap where
  entries : List Slot
  size : Nat
  capacity : Nat

deriving instance DecidableEq for CustomHashMap

/-- `CustomHashMap::with_capacity`: `capacity` slots, all `Vacant`, `size = 0`. -/
def CustomHashMap.with_capacity (capacity : Nat) : CustomHashMap :=
  CustomHashMap.mk (List.replicate capacity Slot.Vacant) 0 capacity

/-- `CustomHashMap::hash`: `(key as usize) % self.capacity`. -/
def CustomHashMap.hash (m : CustomHashMap) (key : Nat) : Nat :=
  key % m.capacity

/-- The slot index probed at loop iteration `i`: the source's
`current_hash = (self.hash(key) + current_index) % self.capacity`. -/
def CustomHashMap.probe (m : CustomHashMap) (key i : Nat) : Nat :=
  (m.hash key + i) % m.capacity

/-- The slot read `self.entries[current_hash]`, total via `getD`
(the index is in bounds on every state the operations actually visit;
see the checked variants and C9). -/
def CustomHashMap.slotAt (m : CustomHashMap) (j : Nat) : Slot :=
  m.entries.getD j Slot.Vacant

/-- Loop body of `CustomHashMap::insert`; `i` is `current_index`, the fuel is
passed as `capacity` by `insert` so it never runs out before the guard fails. -/
def CustomHashMap.insertLoop (m : CustomHashMap) (key value : Nat) : Nat → Nat → CustomHashMap × Option Nat
  | _, 0 => (m, none)
  | i, fuel + 1 =>
    if i < m.capacity then
      match m.slotAt (m.probe key i) with
      | Slot.Vacant =>
          (CustomHashMap.mk (m.entries.set (m.probe key i) (Slot.Occupied key value)) (m.size + 1) m.capacity, none)
      | Slot.Deleted =>
          (CustomHashMap.mk (m.entries.set (m.probe key i) (Slot.Occupied key value)) (m.size + 1) m.capacity, none)
      | Slot.Occupied current_key current_value =>
          if current_key = key then
            (CustomHashMap.mk (m.entries.set (m.probe key i) (Slot.Occupied key value)) m.size m.capacity, some current_value)
          else
            m.insertLoop key value (i + 1) fuel
    else (m, none)

/-- `CustomHashMap::insert` (returns the updated map together with the
source's `Option<u8>` result). -/
def CustomHashMap.insert (m : CustomHashMap) (key value : Nat) : CustomHashMap × Option Nat :=
  m.insertLoop key value 0 m.capacity

/-- Loop body of `CustomHashMap::get`. -/
def CustomHashMap.getLoop (m : CustomHashMap) (key : Nat) : Nat → Nat → Option Nat
  | _, 0 => none
  | i, fuel + 1 =>
    if i < m.capacity then
      match m.slotAt (m.probe key i) with
      | Slot.Vacant => none
      | Slot.Deleted => m.getLoop key (i + 1) fuel
      | Slot.Occupied current_key current_value =>
          if current_key = key then some current_value
          else m.getLoop key (i + 1) fuel
    else none

/-- `CustomHashMap::get`. -/
def CustomHashMap.get (m : CustomHashMap) (key : Nat) : Option Nat :=
  m.getLoop key 0 m.capacity

/-- Loop body of `CustomHashMap::remove`. -/
def CustomHashMap.removeLoop (m : CustomHashMap) (key : Nat) : Nat → Nat → CustomHashMap × Option Nat
  | _, 0 => (m, none)
  | i, fuel + 1 =>
    if i < m.capacity then
      match m.slotAt (m.probe key i) with
      | Slot.Vacant => (m, none)
      | Slot.Deleted => m.removeLoop key (i + 1) fuel
      | Slot.Occupied current_key value =>
          if current_key = key then
            (CustomHashMap.mk (m.entries.set (m.probe key i) Slot.Deleted) (m.size - 1) m.capacity, some value)
          else
            m.removeLoop key (i + 1) fuel
    else (m, none)

/-- `CustomHashMap::remove`. -/
def CustomHashMap.remove (m : CustomHashMap) (key : Nat) : CustomHashMap × Option Nat :=
  m.removeLoop key 0 m.capacity

/-- `CustomHashMap::len`. -/
def CustomHashMap.len (m : CustomHashMap) : Nat :=
  m.size

/-- `CustomHashMap::is_empty`. -/
def CustomHashMap.is_empty (m : CustomHashMap) : Bool :=
  m.size == 0

/-! Checked variants: the same loops, returning `none` exactly where the Rust
program would panic — an out-of-bounds `entries[current_hash]`, a `% 0`
inside `hash` (reached only from inside the loop body), or a debug-mode
`usize` underflow in `size -= 1`. -/

/-- Checked `insert` loop: `none` models a panic. -/
def CustomHashMap.insertLoopChecked (m : CustomHashMap) (key value : Nat) : Nat → Nat → Option (CustomHashMap × Option Nat)
  | _, 0 => some (m, none)
  | i, fuel + 1 =>
    if i < m.capacity then
      if m.capacity = 0 then none
      else
        match m.entries.get? (m.probe key i) with
        | none => none
        | some Slot.Vacant =>
            some (CustomHashMap.mk (m.entries.set (m.probe key i) (Slot.Occupied key value)) (m.size + 1) m.capacity, none)
        | some Slot.Deleted =>
            some (CustomHashMap.mk (m.entries.set (m.probe key i) (Slot.Occupied key value)) (m.size + 1) m.capacity, none)
        | some (Slot.Occupied current_key current_value) =>
            if current_key = key then
              some (CustomHashMap.mk (m.entries.set (m.probe key i) (Slot.Occupied key value)) m.size m.capacity, some current_value)
            else
              m.insertLoopChecked key value (i + 1) fuel
    else some (m, none)

/-- Checked `insert`. -/
def CustomHashMap.insertChecked (m : CustomHashMap) (key value : Nat) : Option (CustomHashMap × Option Nat) :=
  m.insertLoopChecked key value 0 m.capacity

/-- Checked `get` loop: `none` models a panic. -/
def CustomHashMap.getLoopChecked (m : CustomHashMap) (key : Nat) : Nat → Nat → Option (Option Nat)
  | _, 0 => some none
  | i, fuel + 1 =>
    if i < m.capacity then
      if m.capacity = 0 then none
      else
        match m.entries.get? (m.probe key i) with
        | none => none
        | some Slot.Vacant => some none
        | some Slot.Deleted => m.getLoopChecked key (i + 1) fuel
        | some (Slot.Occupied current_key current_value) =>
            if current_key = key then some (some current_value)
            else m.getLoopChecked key (i + 1) fuel
    else some none

/-- Checked `get`. -/
def CustomHashMap.getChecked (m : CustomHashMap) (key : Nat) : Option (Option Nat) :=
  m.getLoopChecked key 0 m.capacity

/-- Checked `remove` loop: `none` models a panic (including the debug-mode
underflow of `size -= 1`). -/
def CustomHashMap.removeLoopChecked (m : CustomHashMap) (key : Nat) : Nat → Nat → Option (CustomHashMap × Option Nat)
  | _, 0 => some (m, none)
  | i, fuel + 1 =>
    if i < m.capacity then
      if m.capacity = 0 then none
      else
        match m.entries.get? (m.probe key i) with
        | none => none
        | some Slot.Vacant => some (m, none)
        | some Slot.Deleted => m.removeLoopChecked key (i + 1) fuel
        | some (Slot.Occupied current_key value) =>
            if current_key = key then
              if m.size = 0 then none
              else some (CustomHashMap.mk (m.entries.set (m.probe key i) Slot.Deleted) (m.size - 1) m.capacity, some value)
            else
              m.removeLoopChecked key (i + 1) fuel
    else some (m, none)

/-- Checked `remove`. -/
def CustomHashMap.removeChecked (m : CustomHashMap) (key : Nat) : Option (CustomHashMap × Option Nat) :=
  m.removeLoopChecked key 0 m.capacity

/-! Auxiliary predicates on slots. -/

/-- The slot holds a live entry. -/
def isOcc : Slot → Bool
  | Slot.Occupied _ _ => true
  | _ => false

/-- The slot holds a live entry for `key`. -/
def hasKey : Slot → Nat → Bool
  | Slot.Occupied k _, key => k == key
  | _, _ => false

/-- Number of `Occupied` slots. -/
def countOccupied (l : List Slot) : Nat :=
  l.countP isOcc

/-- Probe position `i` of `key` holds a live entry for a different key
(the only case in which the `insert` scan moves on). -/
def OccOther (m : CustomHashMap) (key i : Nat) : Prop :=
  isOcc (m.slotAt (m.probe key i)) = true ∧ hasKey (m.slotAt (m.probe key i)) key = false

/-- Probe position `i` of `key` does not stop the `get`/`remove` scan:
it is a tombstone or a live entry for a different key. -/
def ScanPass (m : CustomHashMap) (key i : Nat) : Prop :=
  m.slotAt (m.probe key i) = Slot.Deleted ∨ OccOther m key i

instance (m : CustomHashMap) (key i : Nat) : Decidable (OccOther m key i) := by
  unfold OccOther; infer_instance

instance (m : CustomHashMap) (key i : Nat) : Decidable (ScanPass m key i) := by
  unfold ScanPass; infer_instance

/-! The state-transition system: one step is a single mutating operation
(`get`, `len` and `is_empty` do not touch the state), and a state is
reachable when some interleaving of operations produces it from a freshly
constructed map of positive capacity. -/

/-- One mutating operation. -/
inductive Step : CustomHashMap → CustomHashMap → Prop where
  | insert (m : CustomHashMap) (key value : Nat) : Step m (m.insert key value).1
  | remove (m : CustomHashMap) (key : Nat) : Step m (m.remove key).1

/-- Any finite sequence of operations. -/
def Steps : CustomHashMap → CustomHashMap → Prop :=
  Relation.ReflTransGen Step

/-- Reachable from a freshly constructed map with positive capacity. -/
def Reachable (m : CustomHashMap) : Prop :=
  ∃ c : Nat, 0 < c ∧ Steps (CustomHashMap.with_capacity c) m

/-! Concrete states used by counterexamples and witnesses.  `exMap4` is the
spec's §8 "open question" state: inserting key 9 again after `remove(1)`
reuses the tombstone at slot 1 and orphans the old entry at slot 2. -/

def exMap0 : CustomHashMap := CustomHashMap.with_capacity 8

def exMap1 : CustomHashMap := (exMap0.insert 1 10).1

def exMap2 : CustomHashMap := (exMap1.insert 9 90).1

def exMap3 : CustomHashMap := (exMap2.remove 1).1

def exMap4 : CustomHashMap := (exMap3.insert 9 99).1

/-- A full table with keys 0 and 1: no probe of key 4 finds a non-`Occupied`
slot. -/
def exTwo : CustomHashMap :=
  CustomHashMap.mk [Slot.Occupied 0 5, Slot.Occupied 1 6] 2 2

def exFull1 : CustomHashMap := (exMap0.insert 0 100).1

def exFull2 : CustomHashMap := (exFull1.insert 1 101).1

def exFull3 : CustomHashMap := (exFull2.insert 2 102).1

def exFull4 : CustomHashMap := (exFull3.insert 3 103).1

def exFull5 : CustomHashMap := (exFull4.insert 4 104).1

def exFull6 : CustomHashMap := (exFull5.insert 5 105).1

def exFull7 : CustomHashMap := (exFull6.insert 6 106).1

def exFull8 : CustomHashMap := (exFull7.insert 7 107).1

example : exMap3.get 9 = some 90 := by decide

example : (exMap3.insert 9 99).2 = none := by decide

example : exMap4.entries = [Slot.Vacant, Slot.Occupied 9 99, Slot.Occupied 9 90,
    Slot.Vacant, Slot.Vacant, Slot.Vacant, Slot.Vacant, Slot.Vacant] := by decide

example : exFull8.get 8 = none := by decide

/-! Generic list helpers for `set`/`getD`/`countP`. -/

theorem list_getD_set {α : Type} (l : List α) (p q : Nat) (s d : α) :
    (l.set p s).getD q d = if p = q ∧ p < l.length then s else l.getD q d := by
  induction l generalizing p q with
  | nil => simp
  | cons a l ih =>
    cases p with
    | zero =>
      cases q with
      | zero => simp
      | succ q =>
        simp only [List.set_cons_zero, List.getD_cons_succ, List.length_cons]
        rw [if_neg (by omega)]
    | succ p =>
      cases q with
      | zero =>
        simp only [List.set_cons_succ, List.getD_cons_zero, List.length_cons]
        rw [if_neg (by omega)]
      | succ q =>
        simp only [List.set_cons_succ, List.getD_cons_succ, List.length_cons, ih]
        by_cases h : p = q ∧ p < l.length
        · rw [if_pos h, if_pos (by omega)]
        · rw [if_neg h, if_neg (by omega)]

theorem list_countP_set {α : Type} (p : α → Bool) (l : List α) (t : Nat) (s d : α)
    (ht : t < l.length) :
    (l.set t s).countP p + (if p (l.getD t d) then 1 else 0)
      = l.countP p + (if p s then 1 else 0) := by
  induction l generalizing t with
  | nil => simp at ht
  | cons a l ih =>
    cases t with
    | zero =>
      simp only [List.set_cons_zero, List.countP_cons, List.getD_cons_zero]
      split_ifs <;> omega
    | succ t =>
      simp only [List.set_cons_succ, List.countP_cons, List.getD_cons_succ]
      have := ih t (by simpa using Nat.lt_of_succ_lt_succ (by simpa using ht))
      omega

theorem list_countP_pos {α : Type} (p : α → Bool) (l : List α) (t : Nat) (d : α)
    (ht : t < l.length) (h : p (l.getD t d) = true) : 0 < l.countP p := by
  induction l generalizing t with
  | nil => simp at ht
  | cons a l ih =>
    cases t with
    | zero =>
      simp only [List.getD_cons_zero] at h
      simp [List.countP_cons, h]
    | succ t =>
      simp only [List.getD_cons_succ] at h
      have := ih t (by simpa using Nat.lt_of_succ_lt_succ (by simpa using ht)) h
      simp only [List.countP_cons]
      omega

theorem list_countP_le_length {α : Type} (p : α → Bool) (l : List α) :
    l.countP p ≤ l.length := by
  induction l with
  | nil => simp
  | cons a l ih =>
    simp only [List.countP_cons, List.length_cons]
    cases p a <;> simp <;> omega

theorem list_get_opt_eq_getD {α : Type} (l : List α) (d : α) :
    ∀ j, j < l.length → l[j]? = some (l.getD j d) := by
  induction l with
  | nil => intro j hj; simp at hj
  | cons a l ih =>
    intro j hj
    cases j with
    | zero => simp
    | succ j => simpa using ih j (by simpa using Nat.lt_of_succ_lt_succ (by simpa using hj))

/-! Probe arithmetic: the probe sequence of a key visits each of the
`capacity` slot indices exactly once. -/

theorem CustomHashMap.probe_lt (m : CustomHashMap) (key i : Nat) (hc : 0 < m.capacity) :
    m.probe key i < m.capacity :=
  Nat.mod_lt _ hc

theorem CustomHashMap.probe_inj (m : CustomHashMap) (key : Nat) {i j : Nat}
    (hi : i < m.capacity) (hj : j < m.capacity) (h : m.probe key i = m.probe key j) :
    i = j := by
  unfold CustomHashMap.probe at h
  have h' : i ≡ j [MOD m.capacity] := Nat.ModEq.add_left_cancel' (m.hash key) h
  have h2 : i % m.capacity = j % m.capacity := h'
  rwa [Nat.mod_eq_of_lt hi, Nat.mod_eq_of_lt hj] at h2

theorem CustomHashMap.probe_surj (m : CustomHashMap) (key j : Nat)
    (hc : 0 < m.capacity) (hj : j < m.capacity) :
    ∃ i, i < m.capacity ∧ m.probe key i = j := by
  have hh : m.hash key < m.capacity := Nat.mod_lt _ hc
  refine ⟨(j + m.capacity - m.hash key) % m.capacity, Nat.mod_lt _ hc, ?_⟩
  unfold CustomHashMap.probe
  rw [Nat.add_mod_mod]
  have heq : m.hash key + (j + m.capacity - m.hash key) = j + m.capacity := by omega
  rw [heq, Nat.add_mod_right, Nat.mod_eq_of_lt hj]

/-! Characterization of the scan loops. -/

/-- Unfold `OccOther` to the existential form used in proofs. -/
theorem occOther_iff (m : CustomHashMap) (key i : Nat) :
    OccOther m key i ↔
      ∃ k' v', k' ≠ key ∧ m.slotAt (m.probe key i) = Slot.Occupied k' v' := by
  unfold OccOther
  cases hs : m.slotAt (m.probe key i) with
  | Vacant => simp [isOcc, hasKey]
  | Deleted => simp [isOcc, hasKey]
  | Occupied k' v' =>
    simp only [isOcc, hasKey, Slot.Occupied.injEq, beq_eq_false_iff_ne, ne_eq, true_and]
    constructor
    · intro h
      exact ⟨k', v', h, rfl, rfl⟩
    · rintro ⟨k'', v'', hne, hk, hv⟩
      rw [hk]
      exact hne

/-- The `insert` scan, started at index `i` with every earlier probe position
holding a live entry for a different key, either stops at some position `a`
(placing into a `Vacant`/`Deleted` slot and reporting `none`, or updating a
matching `Occupied` slot and reporting its old value), or exhausts the whole
probe sequence, leaving the map unchanged. -/
theorem CustomHashMap.insertLoop_cases (m : CustomHashMap) (key value : Nat) :
    ∀ fuel i, m.capacity ≤ i + fuel →
    (∀ i', i' < i → OccOther m key i') →
    ((∃ a, i ≤ a ∧ a < m.capacity ∧ (∀ i', i' < a → OccOther m key i') ∧
      (((m.slotAt (m.probe key a) = Slot.Vacant ∨ m.slotAt (m.probe key a) = Slot.Deleted) ∧
         m.insertLoop key value i fuel =
           (CustomHashMap.mk (m.entries.set (m.probe key a) (Slot.Occupied key value)) (m.size + 1) m.capacity, none)) ∨
       (∃ v0, m.slotAt (m.probe key a) = Slot.Occupied key v0 ∧
         m.insertLoop key value i fuel =
           (CustomHashMap.mk (m.entries.set (m.probe key a) (Slot.Occupied key value)) m.size m.capacity, some v0)))) ∨
    ((∀ i', i' < m.capacity → OccOther m key i') ∧ m.insertLoop key value i fuel = (m, none))) := by
  intro fuel
  induction fuel with
  | zero =>
    intro i hfuel hpre
    right
    exact ⟨fun i' hi' => hpre i' (by omega), rfl⟩
  | succ fuel ih =>
    intro i hfuel hpre
    by_cases hi : i < m.capacity
    · cases hs : m.slotAt (m.probe key i) with
      | Vacant =>
        left
        refine ⟨i, le_refl i, hi, hpre, Or.inl ⟨Or.inl hs, ?_⟩⟩
        simp [CustomHashMap.insertLoop, hi, hs]
      | Deleted =>
        left
        refine ⟨i, le_refl i, hi, hpre, Or.inl ⟨Or.inr hs, ?_⟩⟩
        simp [CustomHashMap.insertLoop, hi, hs]
      | Occupied ck cv =>
        by_cases hk : ck = key
        · left
          rw [hk] at hs
          refine ⟨i, le_refl i, hi, hpre, Or.inr ⟨cv, hs, ?_⟩⟩
          simp [CustomHashMap.insertLoop, hi, hs]
        · have hpre' : ∀ i', i' < i + 1 → OccOther m key i' := by
            intro i' hi'
            by_cases hcase : i' < i
            · exact hpre i' hcase
            · have : i' = i := by omega
              subst this
              rw [occOther_iff]
              exact ⟨ck, cv, hk, hs⟩
          have hstep : m.insertLoop key value i (fuel + 1) = m.insertLoop key value (i + 1) fuel := by
            simp [CustomHashMap.insertLoop, hi, hs, hk]
          rcases ih (i + 1) (by omega) hpre' with ⟨a, ha1, ha2, ha3, hres⟩ | ⟨hall, hres⟩
          · left
            exact ⟨a, by omega, ha2, ha3, by rw [hstep]; exact hres⟩
          · right
            exact ⟨hall, by rw [hstep]; exact hres⟩
    · right
      refine ⟨fun i' hi' => hpre i' (by omega), ?_⟩
      simp [CustomHashMap.insertLoop, hi]

/-- If probe position `a` holds a live entry for `key` and every position of
the scan strictly before `a` lets the scan pass, `get` finds the entry. -/
theorem CustomHashMap.getLoop_found (m : CustomHashMap) (key v a : Nat)
    (ha : a < m.capacity) (hslot : m.slotAt (m.probe key a) = Slot.Occupied key v) :
    ∀ fuel i, i ≤ a → m.capacity ≤ i + fuel →
    (∀ i', i ≤ i' → i' < a → ScanPass m key i') →
    m.getLoop key i fuel = some v := by
  intro fuel
  induction fuel with
  | zero =>
    intro i h1 h2 h3
    exact absurd ha (by omega)
  | succ fuel ih =>
    intro i h1 h2 h3
    have hi : i < m.capacity := by omega
    by_cases hia : i = a
    · subst hia
      simp [CustomHashMap.getLoop, hi, hslot]
    · have hlt : i < a := by omega
      rcases h3 i (le_refl i) hlt with hdel | hocc
      · rw [show m.getLoop key i (fuel + 1) = m.getLoop key (i + 1) fuel from by
          simp [CustomHashMap.getLoop, hi, hdel]]
        exact ih (i + 1) (by omega) (by omega) (fun i' h1' h2' => h3 i' (by omega) h2')
      · rw [occOther_iff] at hocc
        obtain ⟨k', v', hne, hs⟩ := hocc
        have hkne : ¬ k' = key := hne
        rw [show m.getLoop key i (fuel + 1) = m.getLoop key (i + 1) fuel from by
          simp [CustomHashMap.getLoop, hi, hs, hkne]]
        exact ih (i + 1) (by omega) (by omega) (fun i' h1' h2' => h3 i' (by omega) h2')

/-- If no in-bounds slot holds a live entry for `key`, `get` reports absent. -/
theorem CustomHashMap.getLoop_none (m : CustomHashMap) (key : Nat)
    (hlen : m.capacity ≤ m.entries.length)
    (habs : ∀ j, j < m.entries.length → hasKey (m.entries.getD j Slot.Vacant) key = false) :
    ∀ fuel i, m.getLoop key i fuel = none := by
  intro fuel
  induction fuel with
  | zero => intro i; rfl
  | succ fuel ih =>
    intro i
    by_cases hi : i < m.capacity
    · have hc : 0 < m.capacity := by omega
      have hp : m.probe key i < m.entries.length := by
        have := m.probe_lt key i hc
        omega
      cases hs : m.slotAt (m.probe key i) with
      | Vacant => simp [CustomHashMap.getLoop, hi, hs]
      | Deleted =>
        rw [show m.getLoop key i (fuel + 1) = m.getLoop key (i + 1) fuel from by
          simp [CustomHashMap.getLoop, hi, hs]]
        exact ih (i + 1)
      | Occupied ck cv =>
        have hck : hasKey (Slot.Occupied ck cv) key = false := by
          have h0 := habs (m.probe key i) hp
          rwa [show m.entries.getD (m.probe key i) Slot.Vacant = m.slotAt (m.probe key i) from rfl,
            hs] at h0
        have hkne : ¬ ck = key := by simpa [hasKey] using hck
        rw [show m.getLoop key i (fuel + 1) = m.getLoop key (i + 1) fuel from by
          simp [CustomHashMap.getLoop, hi, hs, hkne]]
        exact ih (i + 1)
    · simp [CustomHashMap.getLoop, hi]

/-- The `remove` scan either leaves the map unchanged reporting absent, or
tombstones a slot that held a live entry for `key`, decrementing `size`. -/
theorem CustomHashMap.removeLoop_result (m : CustomHashMap) (key : Nat) :
    ∀ fuel i, m.removeLoop key i fuel = (m, none) ∨
      ∃ a v, a < m.capacity ∧ m.slotAt (m.probe key a) = Slot.Occupied key v ∧
        m.removeLoop key i fuel =
          (CustomHashMap.mk (m.entries.set (m.probe key a) Slot.Deleted) (m.size - 1) m.capacity, some v) := by
  intro fuel
  induction fuel with
  | zero => intro i; left; rfl
  | succ fuel ih =>
    intro i
    by_cases hi : i < m.capacity
    · cases hs : m.slotAt (m.probe key i) with
      | Vacant =>
        left
        simp [CustomHashMap.removeLoop, hi, hs]
      | Deleted =>
        rw [show m.removeLoop key i (fuel + 1) = m.removeLoop key (i + 1) fuel from by
          simp [CustomHashMap.removeLoop, hi, hs]]
        exact ih (i + 1)
      | Occupied ck cv =>
        by_cases hk : ck = key
        · right
          rw [hk] at hs
          exact ⟨i, cv, hi, hs, by simp [CustomHashMap.removeLoop, hi, hs]⟩
        · rw [show m.removeLoop key i (fuel + 1) = m.removeLoop key (i + 1) fuel from by
            simp [CustomHashMap.removeLoop, hi, hs, hk]]
          exact ih (i + 1)
    · left
      simp [CustomHashMap.removeLoop, hi]

/-- `remove` follows exactly the scan policy of `get`: where `get` reports
absent, `remove` leaves the map untouched and reports absent. -/
theorem CustomHashMap.getLoop_none_removeLoop (m : CustomHashMap) (key : Nat) :
    ∀ fuel i, m.getLoop key i fuel = none → m.removeLoop key i fuel = (m, none) := by
  intro fuel
  induction fuel with
  | zero => intro i _; rfl
  | succ fuel ih =>
    intro i h
    by_cases hi : i < m.capacity
    · cases hs : m.slotAt (m.probe key i) with
      | Vacant =>
        simp [CustomHashMap.removeLoop, hi, hs]
      | Deleted =>
        rw [show m.getLoop key i (fuel + 1) = m.getLoop key (i + 1) fuel from by
          simp [CustomHashMap.getLoop, hi, hs]] at h
        rw [show m.removeLoop key i (fuel + 1) = m.removeLoop key (i + 1) fuel from by
          simp [CustomHashMap.removeLoop, hi, hs]]
        exact ih (i + 1) h
      | Occupied ck cv =>
        by_cases hk : ck = key
        · rw [hk] at hs
          rw [show m.getLoop key i (fuel + 1) = some cv from by
            simp [CustomHashMap.getLoop, hi, hs]] at h
          exact absurd h (by simp)
        · rw [show m.getLoop key i (fuel + 1) = m.getLoop key (i + 1) fuel from by
            simp [CustomHashMap.getLoop, hi, hs, hk]] at h
          rw [show m.removeLoop key i (fuel + 1) = m.removeLoop key (i + 1) fuel from by
            simp [CustomHashMap.removeLoop, hi, hs, hk]]
          exact ih (i + 1) h
    · simp [CustomHashMap.removeLoop, hi]

/-- Where `get` finds a value, `remove` tombstones precisely the slot that
`get` reads, returns the same value, and decrements `size`. -/
theorem CustomHashMap.getLoop_some_removeLoop (m : CustomHashMap) (key v : Nat) :
    ∀ fuel i, m.getLoop key i fuel = some v →
      ∃ a, i ≤ a ∧ a < m.capacity ∧ m.slotAt (m.probe key a) = Slot.Occupied key v ∧
        m.removeLoop key i fuel =
          (CustomHashMap.mk (m.entries.set (m.probe key a) Slot.Deleted) (m.size - 1) m.capacity, some v) := by
  intro fuel
  induction fuel with
  | zero =>
    intro i h
    rw [show m.getLoop key i 0 = none from rfl] at h
    exact absurd h (by simp)
  | succ fuel ih =>
    intro i h
    by_cases hi : i < m.capacity
    · cases hs : m.slotAt (m.probe key i) with
      | Vacant =>
        rw [show m.getLoop key i (fuel + 1) = none from by
          simp [CustomHashMap.getLoop, hi, hs]] at h
        exact absurd h (by simp)
      | Deleted =>
        rw [show m.getLoop key i (fuel + 1) = m.getLoop key (i + 1) fuel from by
          simp [CustomHashMap.getLoop, hi, hs]] at h
        obtain ⟨a, ha1, ha2, ha3, ha4⟩ := ih (i + 1) h
        refine ⟨a, by omega, ha2, ha3, ?_⟩
        rw [show m.removeLoop key i (fuel + 1) = m.removeLoop key (i + 1) fuel from by
          simp [CustomHashMap.removeLoop, hi, hs]]
        exact ha4
      | Occupied ck cv =>
        by_cases hk : ck = key
        · rw [hk] at hs
          rw [show m.getLoop key i (fuel + 1) = some cv from by
            simp [CustomHashMap.getLoop, hi, hs]] at h
          have hcv : cv = v := by simpa using h
          subst hcv
          exact ⟨i, le_refl i, hi, hs, by simp [CustomHashMap.removeLoop, hi, hs]⟩
        · rw [show m.getLoop key i (fuel + 1) = m.getLoop key (i + 1) fuel from by
            simp [CustomHashMap.getLoop, hi, hs, hk]] at h
          obtain ⟨a, ha1, ha2, ha3, ha4⟩ := ih (i + 1) h
          refine ⟨a, by omega, ha2, ha3, ?_⟩
          rw [show m.removeLoop key i (fuel + 1) = m.removeLoop key (i + 1) fuel from by
            simp [CustomHashMap.removeLoop, hi, hs, hk]]
          exact ha4
    · rw [show m.getLoop key i (fuel + 1) = none from by
        simp [CustomHashMap.getLoop, hi]] at h
      exact absurd h (by simp)

/-- Tombstoning a slot that held a live entry for a different key does not
change what `get` sees for `k'`: an `Occupied` slot for another key and a
`Deleted` slot both let the scan pass. -/
theorem CustomHashMap.getLoop_set_deleted (m : CustomHashMap) (key k' p v : Nat)
    (hp : m.slotAt p = Slot.Occupied key v) (hne : k' ≠ key) :
    ∀ fuel i,
      (CustomHashMap.mk (m.entries.set p Slot.Deleted) (m.size - 1) m.capacity).getLoop k' i fuel
        = m.getLoop k' i fuel := by
  intro fuel
  induction fuel with
  | zero => intro i; rfl
  | succ fuel ih =>
    intro i
    by_cases hi : i < m.capacity
    · have hplen : p < m.entries.length := by
        by_contra hge
        rw [CustomHashMap.slotAt, List.getD_eq_default _ _ (by omega)] at hp
        exact absurd hp (by simp)
      by_cases hq : p = m.probe k' i
      · have hs' : (CustomHashMap.mk (m.entries.set p Slot.Deleted) (m.size - 1) m.capacity).slotAt
            ((CustomHashMap.mk (m.entries.set p Slot.Deleted) (m.size - 1) m.capacity).probe k' i)
            = Slot.Deleted := by
          show (m.entries.set p Slot.Deleted).getD ((m.hash k' + i) % m.capacity) Slot.Vacant = Slot.Deleted
          rw [show (m.hash k' + i) % m.capacity = m.probe k' i from rfl]
          rw [list_getD_set, if_pos ⟨hq, hplen⟩]
        have hsm : m.slotAt (m.probe k' i) = Slot.Occupied key v := by
          rw [← hq]; exact hp
        have hkne : ¬ key = k' := fun hcon => hne hcon.symm
        rw [show (CustomHashMap.mk (m.entries.set p Slot.Deleted) (m.size - 1) m.capacity).getLoop k' i (fuel + 1)
            = (CustomHashMap.mk (m.entries.set p Slot.Deleted) (m.size - 1) m.capacity).getLoop k' (i + 1) fuel from by
          simp [CustomHashMap.getLoop, hi, hs']]
        rw [show m.getLoop k' i (fuel + 1) = m.getLoop k' (i + 1) fuel from by
          simp [CustomHashMap.getLoop, hi, hsm, hkne]]
        exact ih (i + 1)
      · have hsame : (CustomHashMap.mk (m.entries.set p Slot.Deleted) (m.size - 1) m.capacity).slotAt
            ((CustomHashMap.mk (m.entries.set p Slot.Deleted) (m.size - 1) m.capacity).probe k' i)
            = m.slotAt (m.probe k' i) := by
          show (m.entries.set p Slot.Deleted).getD ((m.hash k' + i) % m.capacity) Slot.Vacant
            = m.entries.getD (m.probe k' i) Slot.Vacant
          rw [show (m.hash k' + i) % m.capacity = m.probe k' i from rfl]
          rw [list_getD_set, if_neg (fun hcon => hq hcon.1)]
        cases hs : m.slotAt (m.probe k' i) with
        | Vacant =>
          rw [hs] at hsame
          simp [CustomHashMap.getLoop, hi, hs, hsame]
        | Deleted =>
          rw [hs] at hsame
          rw [show (CustomHashMap.mk (m.entries.set p Slot.Deleted) (m.size - 1) m.capacity).getLoop k' i (fuel + 1)
              = (CustomHashMap.mk (m.entries.set p Slot.Deleted) (m.size - 1) m.capacity).getLoop k' (i + 1) fuel from by
            simp [CustomHashMap.getLoop, hi, hsame]]
          rw [show m.getLoop k' i (fuel + 1) = m.getLoop k' (i + 1) fuel from by
            simp [CustomHashMap.getLoop, hi, hs]]
          exact ih (i + 1)
        | Occupied ck cv =>
          rw [hs] at hsame
          by_cases hk : ck = k'
          · simp [CustomHashMap.getLoop, hi, hs, hsame, hk]
          · rw [show (CustomHashMap.mk (m.entries.set p Slot.Deleted) (m.size - 1) m.capacity).getLoop k' i (fuel + 1)
                = (CustomHashMap.mk (m.entries.set p Slot.Deleted) (m.size - 1) m.capacity).getLoop k' (i + 1) fuel from by
              simp [CustomHashMap.getLoop, hi, hsame, hk]]
            rw [show m.getLoop k' i (fuel + 1) = m.getLoop k' (i + 1) fuel from by
              simp [CustomHashMap.getLoop, hi, hs, hk]]
            exact ih (i + 1)
    · simp [CustomHashMap.getLoop, hi]

/-! No operation ever writes `Vacant` into a slot. -/

/-- The `insert` loop never makes a non-`Vacant` slot `Vacant`. -/
theorem CustomHashMap.insertLoop_fst_not_vacant (m : CustomHashMap) (key value : Nat) :
    ∀ fuel i j, m.slotAt j ≠ Slot.Vacant →
      (m.insertLoop key value i fuel).1.slotAt j ≠ Slot.Vacant := by
  intro fuel
  induction fuel with
  | zero => intro i j h; exact h
  | succ fuel ih =>
    intro i j h
    by_cases hi : i < m.capacity
    · cases hs : m.slotAt (m.probe key i) with
      | Vacant =>
        rw [show (m.insertLoop key value i (fuel + 1)).1
            = CustomHashMap.mk (m.entries.set (m.probe key i) (Slot.Occupied key value)) (m.size + 1) m.capacity from by
          simp [CustomHashMap.insertLoop, hi, hs]]
        show (m.entries.set (m.probe key i) (Slot.Occupied key value)).getD j Slot.Vacant ≠ Slot.Vacant
        rw [list_getD_set]
        split_ifs
        · simp
        · exact h
      | Deleted =>
        rw [show (m.insertLoop key value i (fuel + 1)).1
            = CustomHashMap.mk (m.entries.set (m.probe key i) (Slot.Occupied key value)) (m.size + 1) m.capacity from by
          simp [CustomHashMap.insertLoop, hi, hs]]
        show (m.entries.set (m.probe key i) (Slot.Occupied key value)).getD j Slot.Vacant ≠ Slot.Vacant
        rw [list_getD_set]
        split_ifs
        · simp
        · exact h
      | Occupied ck cv =>
        by_cases hk : ck = key
        · rw [show (m.insertLoop key value i (fuel + 1)).1
              = CustomHashMap.mk (m.entries.set (m.probe key i) (Slot.Occupied key value)) m.size m.capacity from by
            simp [CustomHashMap.insertLoop, hi, hs, hk]]
          show (m.entries.set (m.probe key i) (Slot.Occupied key value)).getD j Slot.Vacant ≠ Slot.Vacant
          rw [list_getD_set]
          split_ifs
          · simp
          · exact h
        · rw [show (m.insertLoop key value i (fuel + 1)).1 = (m.insertLoop key value (i + 1) fuel).1 from by
            simp [CustomHashMap.insertLoop, hi, hs, hk]]
          exact ih (i + 1) j h
    · rw [show (m.insertLoop key value i (fuel + 1)).1 = m from by
        simp [CustomHashMap.insertLoop, hi]]
      exact h

/-- The `remove` loop never makes a non-`Vacant` slot `Vacant`. -/
theorem CustomHashMap.removeLoop_fst_not_vacant (m : CustomHashMap) (key : Nat) :
    ∀ fuel i j, m.slotAt j ≠ Slot.Vacant →
      (m.removeLoop key i fuel).1.slotAt j ≠ Slot.Vacant := by
  intro fuel
  induction fuel with
  | zero => intro i j h; exact h
  | succ fuel ih =>
    intro i j h
    by_cases hi : i < m.capacity
    · cases hs : m.slotAt (m.probe key i) with
      | Vacant =>
        rw [show (m.removeLoop key i (fuel + 1)).1 = m from by
          simp [CustomHashMap.removeLoop, hi, hs]]
        exact h
      | Deleted =>
        rw [show (m.removeLoop key i (fuel + 1)).1 = (m.removeLoop key (i + 1) fuel).1 from by
          simp [CustomHashMap.removeLoop, hi, hs]]
        exact ih (i + 1) j h
      | Occupied ck cv =>
        by_cases hk : ck = key
        · rw [show (m.removeLoop key i (fuel + 1)).1
              = CustomHashMap.mk (m.entries.set (m.probe key i) Slot.Deleted) (m.size - 1) m.capacity from by
            simp [CustomHashMap.removeLoop, hi, hs, hk]]
          show (m.entries.set (m.probe key i) Slot.Deleted).getD j Slot.Vacant ≠ Slot.Vacant
          rw [list_getD_set]
          split_ifs
          · simp
          · exact h
        · rw [show (m.removeLoop key i (fuel + 1)).1 = (m.removeLoop key (i + 1) fuel).1 from by
            simp [CustomHashMap.removeLoop, hi, hs, hk]]
          exact ih (i + 1) j h
    · rw [show (m.removeLoop key i (fuel + 1)).1 = m from by
        simp [CustomHashMap.removeLoop, hi]]
      exact h

/-- The `insert` loop never changes the capacity. -/
theorem CustomHashMap.insertLoop_fst_capacity (m : CustomHashMap) (key value : Nat) :
    ∀ fuel i, (m.insertLoop key value i fuel).1.capacity = m.capacity := by
  intro fuel
  induction fuel with
  | zero => intro i; rfl
  | succ fuel ih =>
    intro i
    by_cases hi : i < m.capacity
    · cases hs : m.slotAt (m.probe key i) with
      | Vacant => simp [CustomHashMap.insertLoop, hi, hs]
      | Deleted => simp [CustomHashMap.insertLoop, hi, hs]
      | Occupied ck cv =>
        by_cases hk : ck = key
        · simp [CustomHashMap.insertLoop, hi, hs, hk]
        · rw [show (m.insertLoop key value i (fuel + 1)).1 = (m.insertLoop key value (i + 1) fuel).1 from by
            simp [CustomHashMap.insertLoop, hi, hs, hk]]
          exact ih (i + 1)
    · simp [CustomHashMap.insertLoop, hi]

/-- The `remove` loop never changes the capacity. -/
theorem CustomHashMap.removeLoop_fst_capacity (m : CustomHashMap) (key : Nat) :
    ∀ fuel i, (m.removeLoop key i fuel).1.capacity = m.capacity := by
  intro fuel
  induction fuel with
  | zero => intro i; rfl
  | succ fuel ih =>
    intro i
    by_cases hi : i < m.capacity
    · cases hs : m.slotAt (m.probe key i) with
      | Vacant => simp [CustomHashMap.removeLoop, hi, hs]
      | Deleted =>
        rw [show (m.removeLoop key i (fuel + 1)).1 = (m.removeLoop key (i + 1) fuel).1 from by
          simp [CustomHashMap.removeLoop, hi, hs]]
        exact ih (i + 1)
      | Occupied ck cv =>
        by_cases hk : ck = key
        · simp [CustomHashMap.removeLoop, hi, hs, hk]
        · rw [show (m.removeLoop key i (fuel + 1)).1 = (m.removeLoop key (i + 1) fuel).1 from by
            simp [CustomHashMap.removeLoop, hi, hs, hk]]
          exact ih (i + 1)
    · simp [CustomHashMap.removeLoop, hi]

/-! The inductive state invariant. -/

/-- State invariant maintained by every operation: the entry array keeps its
construction length, `size` counts the `Occupied` slots, and every live
entry is preceded, in its key's probe sequence, only by non-`Vacant` slots
(every scan position strictly before one holding the key is `Occupied` or
`Deleted`). -/
structure MapInv (m : CustomHashMap) : Prop where
  len_eq : m.entries.length = m.capacity
  size_eq : m.size = countOccupied m.entries
  chain : ∀ k v i, i < m.capacity → m.slotAt (m.probe k i) = Slot.Occupied k v →
    ∀ i', i' < i → m.slotAt (m.probe k i') ≠ Slot.Vacant

theorem list_getD_replicate (c j : Nat) (a : Slot) :
    (List.replicate c a).getD j a = a := by
  induction c generalizing j with
  | zero => simp
  | succ c ih =>
    cases j with
    | zero => simp [List.replicate]
    | succ j => simp [List.replicate, ih j]

theorem countOccupied_replicate_vacant (c : Nat) :
    countOccupied (List.replicate c Slot.Vacant) = 0 := by
  induction c with
  | zero => rfl
  | succ c ih => simp [List.replicate, countOccupied, List.countP_cons, isOcc, ih]

/-- A freshly constructed map satisfies the invariant. -/
theorem inv_with_capacity (c : Nat) : MapInv (CustomHashMap.with_capacity c) := by
  refine ⟨by simp [CustomHashMap.with_capacity], ?_, ?_⟩
  · show 0 = countOccupied (List.replicate c Slot.Vacant)
    rw [countOccupied_replicate_vacant]
  · intro k v i hi hocc i' hi'
    exfalso
    rw [show (CustomHashMap.with_capacity c).slotAt ((CustomHashMap.with_capacity c).probe k i)
        = (List.replicate c Slot.Vacant).getD ((CustomHashMap.with_capacity c).probe k i) Slot.Vacant from rfl,
      list_getD_replicate] at hocc
    exact absurd hocc (by simp)

/-- Writing a live entry for `key` at probe position `a` of `key`, when every
earlier position of that probe sequence holds a live entry for another key,
preserves the probe-chain property (for any value of the `size` field). -/
theorem chain_set_occupied (m : CustomHashMap) (s key value a : Nat)
    (hlen : m.entries.length = m.capacity)
    (hchain : ∀ k v i, i < m.capacity → m.slotAt (m.probe k i) = Slot.Occupied k v →
      ∀ i', i' < i → m.slotAt (m.probe k i') ≠ Slot.Vacant)
    (ha : a < m.capacity)
    (hbelow : ∀ i', i' < a → OccOther m key i') :
    ∀ k v i, i < m.capacity →
      (CustomHashMap.mk (m.entries.set (m.probe key a) (Slot.Occupied key value)) s m.capacity).slotAt
        ((CustomHashMap.mk (m.entries.set (m.probe key a) (Slot.Occupied key value)) s m.capacity).probe k i)
        = Slot.Occupied k v →
      ∀ i', i' < i →
        (CustomHashMap.mk (m.entries.set (m.probe key a) (Slot.Occupied key value)) s m.capacity).slotAt
          ((CustomHashMap.mk (m.entries.set (m.probe key a) (Slot.Occupied key value)) s m.capacity).probe k i')
          ≠ Slot.Vacant := by
  intro k v i hi hocc i' hi'
  have hc : 0 < m.capacity := by omega
  have hplen : m.probe key a < m.entries.length := by
    rw [hlen]
    exact m.probe_lt key a hc
  rw [show (CustomHashMap.mk (m.entries.set (m.probe key a) (Slot.Occupied key value)) s m.capacity).slotAt
      ((CustomHashMap.mk (m.entries.set (m.probe key a) (Slot.Occupied key value)) s m.capacity).probe k i)
      = (m.entries.set (m.probe key a) (Slot.Occupied key value)).getD (m.probe k i) Slot.Vacant from rfl,
    list_getD_set] at hocc
  show (m.entries.set (m.probe key a) (Slot.Occupied key value)).getD (m.probe k i') Slot.Vacant ≠ Slot.Vacant
  by_cases hq : m.probe key a = m.probe k i
  · rw [if_pos ⟨hq, hplen⟩] at hocc
    have hkv : key = k ∧ value = v := by
      constructor
      · exact (Slot.Occupied.injEq key value k v ▸ hocc).1
      · exact (Slot.Occupied.injEq key value k v ▸ hocc).2
    obtain ⟨hk1, _⟩ := hkv
    subst hk1
    have hai : a = i := m.probe_inj key ha hi hq
    subst hai
    have hother := hbelow i' hi'
    rw [occOther_iff] at hother
    obtain ⟨k', v', hne, hs⟩ := hother
    rw [list_getD_set, if_neg]
    · rw [show m.entries.getD (m.probe key i') Slot.Vacant = m.slotAt (m.probe key i') from rfl, hs]
      simp
    · intro hcon
      have : a = i' := m.probe_inj key ha (by omega) hcon.1
      omega
  · rw [if_neg (fun hcon => hq hcon.1)] at hocc
    have hold := hchain k v i hi hocc i' hi'
    rw [list_getD_set]
    split_ifs
    · simp
    · exact hold

/-- Tombstoning any slot preserves the probe-chain property (for any value
of the `size` field). -/
theorem chain_set_deleted (m : CustomHashMap) (s p : Nat)
    (hchain : ∀ k v i, i < m.capacity → m.slotAt (m.probe k i) = Slot.Occupied k v →
      ∀ i', i' < i → m.slotAt (m.probe k i') ≠ Slot.Vacant) :
    ∀ k v i, i < m.capacity →
      (CustomHashMap.mk (m.entries.set p Slot.Deleted) s m.capacity).slotAt
        ((CustomHashMap.mk (m.entries.set p Slot.Deleted) s m.capacity).probe k i)
        = Slot.Occupied k v →
      ∀ i', i' < i →
        (CustomHashMap.mk (m.entries.set p Slot.Deleted) s m.capacity).slotAt
          ((CustomHashMap.mk (m.entries.set p Slot.Deleted) s m.capacity).probe k i')
          ≠ Slot.Vacant := by
  intro k v i hi hocc i' hi'
  rw [show (CustomHashMap.mk (m.entries.set p Slot.Deleted) s m.capacity).slotAt
      ((CustomHashMap.mk (m.entries.set p Slot.Deleted) s m.capacity).probe k i)
      = (m.entries.set p Slot.Deleted).getD (m.probe k i) Slot.Vacant from rfl,
    list_getD_set] at hocc
  show (m.entries.set p Slot.Deleted).getD (m.probe k i') Slot.Vacant ≠ Slot.Vacant
  by_cases hcond : p = m.probe k i ∧ p < m.entries.length
  · rw [if_pos hcond] at hocc
    exact absurd hocc (by simp)
  · rw [if_neg hcond] at hocc
    have hold := hchain k v i hi hocc i' hi'
    rw [list_getD_set]
    split_ifs
    · simp
    · exact hold

/-- `insert` preserves the invariant. -/
theorem inv_insert (m : CustomHashMap) (key value : Nat) (hInv : MapInv m) :
    MapInv (m.insert key value).1 := by
  have hcases := m.insertLoop_cases key value m.capacity 0 (by omega)
    (fun i' hi' => absurd hi' (by omega))
  rcases hcases with ⟨a, _, ha2, ha3, hres⟩ | ⟨_, hres⟩
  · have hc : 0 < m.capacity := by omega
    have hplen : m.probe key a < m.entries.length := by
      rw [hInv.len_eq]
      exact m.probe_lt key a hc
    rcases hres with ⟨hslot, heq⟩ | ⟨v0, hslot, heq⟩
    · have h1 : (m.insert key value).1
          = CustomHashMap.mk (m.entries.set (m.probe key a) (Slot.Occupied key value)) (m.size + 1) m.capacity := by
        unfold CustomHashMap.insert
        rw [heq]
      rw [h1]
      refine ⟨?_, ?_, ?_⟩
      · show (m.entries.set (m.probe key a) (Slot.Occupied key value)).length = m.capacity
        rw [List.length_set]
        exact hInv.len_eq
      · show m.size + 1 = countOccupied (m.entries.set (m.probe key a) (Slot.Occupied key value))
        have hcount := list_countP_set isOcc m.entries (m.probe key a) (Slot.Occupied key value) Slot.Vacant hplen
        have hold : isOcc (m.entries.getD (m.probe key a) Slot.Vacant) = false := by
          rcases hslot with h | h <;>
            rw [show m.entries.getD (m.probe key a) Slot.Vacant = m.slotAt (m.probe key a) from rfl, h] <;>
            rfl
        rw [hold] at hcount
        simp only [isOcc, if_false, if_true, Bool.false_eq_true] at hcount
        have hsz := hInv.size_eq
        unfold countOccupied at hsz ⊢
        omega
      · exact chain_set_occupied m (m.size + 1) key value a hInv.len_eq hInv.chain ha2 ha3
    · have h1 : (m.insert key value).1
          = CustomHashMap.mk (m.entries.set (m.probe key a) (Slot.Occupied key value)) m.size m.capacity := by
        unfold CustomHashMap.insert
        rw [heq]
      rw [h1]
      refine ⟨?_, ?_, ?_⟩
      · show (m.entries.set (m.probe key a) (Slot.Occupied key value)).length = m.capacity
        rw [List.length_set]
        exact hInv.len_eq
      · show m.size = countOccupied (m.entries.set (m.probe key a) (Slot.Occupied key value))
        have hcount := list_countP_set isOcc m.entries (m.probe key a) (Slot.Occupied key value) Slot.Vacant hplen
        have hold : isOcc (m.entries.getD (m.probe key a) Slot.Vacant) = true := by
          rw [show m.entries.getD (m.probe key a) Slot.Vacant = m.slotAt (m.probe key a) from rfl, hslot]
          rfl
        rw [hold] at hcount
        simp only [isOcc, if_true] at hcount
        have hsz := hInv.size_eq
        unfold countOccupied at hsz ⊢
        omega
      · exact chain_set_occupied m m.size key value a hInv.len_eq hInv.chain ha2 ha3
  · have h1 : (m.insert key value).1 = m := by
      unfold CustomHashMap.insert
      rw [hres]
    rw [h1]
    exact hInv

/-- `remove` preserves the invariant. -/
theorem inv_remove (m : CustomHashMap) (key : Nat) (hInv : MapInv m) :
    MapInv (m.remove key).1 := by
  rcases m.removeLoop_result key m.capacity 0 with heq | ⟨a, v, ha, hslot, heq⟩
  · have h1 : (m.remove key).1 = m := by
      unfold CustomHashMap.remove
      rw [heq]
    rw [h1]
    exact hInv
  · have hc : 0 < m.capacity := by omega
    have hplen : m.probe key a < m.entries.length := by
      rw [hInv.len_eq]
      exact m.probe_lt key a hc
    have h1 : (m.remove key).1
        = CustomHashMap.mk (m.entries.set (m.probe key a) Slot.Deleted) (m.size - 1) m.capacity := by
      unfold CustomHashMap.remove
      rw [heq]
    rw [h1]
    refine ⟨?_, ?_, ?_⟩
    · show (m.entries.set (m.probe key a) Slot.Deleted).length = m.capacity
      rw [List.length_set]
      exact hInv.len_eq
    · show m.size - 1 = countOccupied (m.entries.set (m.probe key a) Slot.Deleted)
      have hcount := list_countP_set isOcc m.entries (m.probe key a) Slot.Deleted Slot.Vacant hplen
      have hold : isOcc (m.entries.getD (m.probe key a) Slot.Vacant) = true := by
        rw [show m.entries.getD (m.probe key a) Slot.Vacant = m.slotAt (m.probe key a) from rfl, hslot]
        rfl
      rw [hold] at hcount
      simp only [isOcc, if_true, Bool.false_eq_true, if_false] at hcount
      have hsz := hInv.size_eq
      unfold countOccupied at hsz ⊢
      omega
    · exact chain_set_deleted m (m.size - 1) (m.probe key a) hInv.chain

/-- A single operation preserves the invariant. -/
theorem inv_step (m m' : CustomHashMap) (hInv : MapInv m) (hstep : Step m m') : MapInv m' := by
  cases hstep with
  | insert key value => exact inv_insert m key value hInv
  | remove key => exact inv_remove m key hInv

/-- Every reachable state satisfies the invariant. -/
theorem reachable_inv (m : CustomHashMap) (h : Reachable m) : MapInv m := by
  obtain ⟨c, _, hsteps⟩ := h
  unfold Steps at hsteps
  induction hsteps with
  | refl => exact inv_with_capacity c
  | tail _ hstep ih => exact inv_step _ _ ih hstep

/-- A single operation preserves the capacity. -/
theorem step_capacity (m m' : CustomHashMap) (hstep : Step m m') : m'.capacity = m.capacity := by
  cases hstep with
  | insert key value => exact m.insertLoop_fst_capacity key value m.capacity 0
  | remove key => exact m.removeLoop_fst_capacity key m.capacity 0

/-- Any sequence of operations preserves the capacity. -/
theorem steps_capacity (m m' : CustomHashMap) (h : Steps m m') : m'.capacity = m.capacity := by
  unfold Steps at h
  induction h with
  | refl => rfl
  | tail _ hstep ih => rw [step_capacity _ _ hstep, ih]

/-- Every reachable state has positive capacity. -/
theorem reachable_capacity_pos (m : CustomHashMap) (h : Reachable m) : 0 < m.capacity := by
  obtain ⟨c, hc, hsteps⟩ := h
  have := steps_capacity _ _ hsteps
  rw [show (CustomHashMap.with_capacity c).capacity = c from rfl] at this
  omega

/-! The checked loops never hit a panic case on states satisfying the
invariant: every computed index is in bounds, the modulo divisor is nonzero
whenever evaluated, and `size -= 1` never underflows. -/

/-- Checked `insert` agrees with (the `some` of) total `insert`. -/
theorem CustomHashMap.insertLoopChecked_eq (m : CustomHashMap) (key value : Nat)
    (hlen : m.capacity ≤ m.entries.length) :
    ∀ fuel i, m.insertLoopChecked key value i fuel = some (m.insertLoop key value i fuel) := by
  intro fuel
  induction fuel with
  | zero => intro i; rfl
  | succ fuel ih =>
    intro i
    by_cases hi : i < m.capacity
    · have hc0 : ¬ m.capacity = 0 := by omega
      have hp : m.probe key i < m.entries.length := by
        have := m.probe_lt key i (by omega)
        omega
      have hget := list_get_opt_eq_getD m.entries Slot.Vacant (m.probe key i) hp
      cases hs : m.slotAt (m.probe key i) with
      | Vacant =>
        have hget' : m.entries[m.probe key i]? = some Slot.Vacant := by
          rw [hget, show m.entries.getD (m.probe key i) Slot.Vacant = m.slotAt (m.probe key i) from rfl, hs]
        simp [CustomHashMap.insertLoopChecked, CustomHashMap.insertLoop, hi, hc0, hget', hs]
      | Deleted =>
        have hget' : m.entries[m.probe key i]? = some Slot.Deleted := by
          rw [hget, show m.entries.getD (m.probe key i) Slot.Vacant = m.slotAt (m.probe key i) from rfl, hs]
        simp [CustomHashMap.insertLoopChecked, CustomHashMap.insertLoop, hi, hc0, hget', hs]
      | Occupied ck cv =>
        have hget' : m.entries[m.probe key i]? = some (Slot.Occupied ck cv) := by
          rw [hget, show m.entries.getD (m.probe key i) Slot.Vacant = m.slotAt (m.probe key i) from rfl, hs]
        by_cases hk : ck = key
        · simp [CustomHashMap.insertLoopChecked, CustomHashMap.insertLoop, hi, hc0, hget', hs, hk]
        · rw [show m.insertLoopChecked key value i (fuel + 1) = m.insertLoopChecked key value (i + 1) fuel from by
            simp [CustomHashMap.insertLoopChecked, hi, hc0, hget', hk]]
          rw [show m.insertLoop key value i (fuel + 1) = m.insertLoop key value (i + 1) fuel from by
            simp [CustomHashMap.insertLoop, hi, hs, hk]]
          exact ih (i + 1)
    · simp [CustomHashMap.insertLoopChecked, CustomHashMap.insertLoop, hi]

/-- Checked `get` agrees with (the `some` of) total `get`. -/
theorem CustomHashMap.getLoopChecked_eq (m : CustomHashMap) (key : Nat)
    (hlen : m.capacity ≤ m.entries.length) :
    ∀ fuel i, m.getLoopChecked key i fuel = some (m.getLoop key i fuel) := by
  intro fuel
  induction fuel with
  | zero => intro i; rfl
  | succ fuel ih =>
    intro i
    by_cases hi : i < m.capacity
    · have hc0 : ¬ m.capacity = 0 := by omega
      have hp : m.probe key i < m.entries.length := by
        have := m.probe_lt key i (by omega)
        omega
      have hget := list_get_opt_eq_getD m.entries Slot.Vacant (m.probe key i) hp
      cases hs : m.slotAt (m.probe key i) with
      | Vacant =>
        have hget' : m.entries[m.probe key i]? = some Slot.Vacant := by
          rw [hget, show m.entries.getD (m.probe key i) Slot.Vacant = m.slotAt (m.probe key i) from rfl, hs]
        simp [CustomHashMap.getLoopChecked, CustomHashMap.getLoop, hi, hc0, hget', hs]
      | Deleted =>
        have hget' : m.entries[m.probe key i]? = some Slot.Deleted := by
          rw [hget, show m.entries.getD (m.probe key i) Slot.Vacant = m.slotAt (m.probe key i) from rfl, hs]
        rw [show m.getLoopChecked key i (fuel + 1) = m.getLoopChecked key (i + 1) fuel from by
          simp [CustomHashMap.getLoopChecked, hi, hc0, hget']]
        rw [show m.getLoop key i (fuel + 1) = m.getLoop key (i + 1) fuel from by
          simp [CustomHashMap.getLoop, hi, hs]]
        exact ih (i + 1)
      | Occupied ck cv =>
        have hget' : m.entries[m.probe key i]? = some (Slot.Occupied ck cv) := by
          rw [hget, show m.entries.getD (m.probe key i) Slot.Vacant = m.slotAt (m.probe key i) from rfl, hs]
        by_cases hk : ck = key
        · simp [CustomHashMap.getLoopChecked, CustomHashMap.getLoop, hi, hc0, hget', hs, hk]
        · rw [show m.getLoopChecked key i (fuel + 1) = m.getLoopChecked key (i + 1) fuel from by
            simp [CustomHashMap.getLoopChecked, hi, hc0, hget', hk]]
          rw [show m.getLoop key i (fuel + 1) = m.getLoop key (i + 1) fuel from by
            simp [CustomHashMap.getLoop, hi, hs, hk]]
          exact ih (i + 1)
    · simp [CustomHashMap.getLoopChecked, CustomHashMap.getLoop, hi]

/-- Checked `remove` agrees with (the `some` of) total `remove`; the
`size -= 1` underflow cannot fire because `size` counts the `Occupied`
slots and one of them is being removed. -/
theorem CustomHashMap.removeLoopChecked_eq (m : CustomHashMap) (key : Nat)
    (hlen : m.capacity ≤ m.entries.length)
    (hsize : m.size = countOccupied m.entries) :
    ∀ fuel i, m.removeLoopChecked key i fuel = some (m.removeLoop key i fuel) := by
  intro fuel
  induction fuel with
  | zero => intro i; rfl
  | succ fuel ih =>
    intro i
    by_cases hi : i < m.capacity
    · have hc0 : ¬ m.capacity = 0 := by omega
      have hp : m.probe key i < m.entries.length := by
        have := m.probe_lt key i (by omega)
        omega
      have hget := list_get_opt_eq_getD m.entries Slot.Vacant (m.probe key i) hp
      cases hs : m.slotAt (m.probe key i) with
      | Vacant =>
        have hget' : m.entries[m.probe key i]? = some Slot.Vacant := by
          rw [hget, show m.entries.getD (m.probe key i) Slot.Vacant = m.slotAt (m.probe key i) from rfl, hs]
        simp [CustomHashMap.removeLoopChecked, CustomHashMap.removeLoop, hi, hc0, hget', hs]
      | Deleted =>
        have hget' : m.entries[m.probe key i]? = some Slot.Deleted := by
          rw [hget, show m.entries.getD (m.probe key i) Slot.Vacant = m.slotAt (m.probe key i) from rfl, hs]
        rw [show m.removeLoopChecked key i (fuel + 1) = m.removeLoopChecked key (i + 1) fuel from by
          simp [CustomHashMap.removeLoopChecked, hi, hc0, hget']]
        rw [show m.removeLoop key i (fuel + 1) = m.removeLoop key (i + 1) fuel from by
          simp [CustomHashMap.removeLoop, hi, hs]]
        exact ih (i + 1)
      | Occupied ck cv =>
        have hget' : m.entries[m.probe key i]? = some (Slot.Occupied ck cv) := by
          rw [hget, show m.entries.getD (m.probe key i) Slot.Vacant = m.slotAt (m.probe key i) from rfl, hs]
        by_cases hk : ck = key
        · have hoccp : isOcc (m.entries.getD (m.probe key i) Slot.Vacant) = true := by
            rw [show m.entries.getD (m.probe key i) Slot.Vacant = m.slotAt (m.probe key i) from rfl, hs]
            rfl
          have hpos : 0 < m.entries.countP isOcc := list_countP_pos isOcc m.entries _ Slot.Vacant hp hoccp
          have hsz : ¬ m.size = 0 := by
            unfold countOccupied at hsize
            omega
          simp [CustomHashMap.removeLoopChecked, CustomHashMap.removeLoop, hi, hc0, hget', hs, hk, hsz]
        · rw [show m.removeLoopChecked key i (fuel + 1) = m.removeLoopChecked key (i + 1) fuel from by
            simp [CustomHashMap.removeLoopChecked, hi, hc0, hget', hk]]
          rw [show m.removeLoop key i (fuel + 1) = m.removeLoop key (i + 1) fuel from by
            simp [CustomHashMap.removeLoop, hi, hs, hk]]
          exact ih (i + 1)
    · simp [CustomHashMap.removeLoopChecked, CustomHashMap.removeLoop, hi]

/-- After writing a live entry for `key` at probe position `a` of `key`,
with every earlier position of that scan `Occupied` by another key, `get`
returns the new value (whatever the `size` field holds). -/
theorem get_after_set_occupied (m : CustomHashMap) (s key v a : Nat)
    (hlen : m.entries.length = m.capacity)
    (ha : a < m.capacity)
    (hbelow : ∀ i', i' < a → OccOther m key i') :
    (CustomHashMap.mk (m.entries.set (m.probe key a) (Slot.Occupied key v)) s m.capacity).get key
      = some v := by
  have hc : 0 < m.capacity := by omega
  have hplen : m.probe key a < m.entries.length := by
    rw [hlen]
    exact m.probe_lt key a hc
  refine CustomHashMap.getLoop_found
    (CustomHashMap.mk (m.entries.set (m.probe key a) (Slot.Occupied key v)) s m.capacity)
    key v a ha ?_ m.capacity 0 (by omega) (by change m.capacity ≤ 0 + m.capacity; omega) ?_
  · show (m.entries.set (m.probe key a) (Slot.Occupied key v)).getD (m.probe key a) Slot.Vacant
      = Slot.Occupied key v
    rw [list_getD_set, if_pos ⟨rfl, hplen⟩]
  · intro i' _ hi'
    have hother := hbelow i' hi'
    rw [occOther_iff] at hother
    obtain ⟨k', v', hne, hs⟩ := hother
    right
    rw [occOther_iff]
    refine ⟨k', v', hne, ?_⟩
    show (m.entries.set (m.probe key a) (Slot.Occupied key v)).getD (m.probe key i') Slot.Vacant
      = Slot.Occupied k' v'
    rw [list_getD_set, if_neg]
    · exact hs
    · intro hcon
      have : a = i' := m.probe_inj key ha (by omega) hcon.1
      omega

/-! Reachability of the concrete example states. -/

theorem exMap0_reachable : Reachable exMap0 :=
  ⟨8, by omega, Relation.ReflTransGen.refl⟩

theorem exMap1_reachable : Reachable exMap1 :=
  ⟨8, by omega, Relation.ReflTransGen.single (Step.insert exMap0 1 10)⟩

theorem exMap3_reachable : Reachable exMap3 :=
  ⟨8, by omega,
    ((Relation.ReflTransGen.single (Step.insert exMap0 1 10)).tail
      (Step.insert exMap1 9 90)).tail (Step.remove exMap2 1)⟩

theorem exMap4_reachable : Reachable exMap4 :=
  ⟨8, by omega,
    (((Relation.ReflTransGen.single (Step.insert exMap0 1 10)).tail
      (Step.insert exMap1 9 90)).tail (Step.remove exMap2 1)).tail
      (Step.insert exMap3 9 99)⟩

theorem exFull8_reachable : Reachable exFull8 :=
  ⟨8, by omega,
    (((((((Relation.ReflTransGen.single (Step.insert exMap0 0 100)).tail
      (Step.insert exFull1 1 101)).tail
      (Step.insert exFull2 2 102)).tail
      (Step.insert exFull3 3 103)).tail
      (Step.insert exFull4 4 104)).tail
      (Step.insert exFull5 5 105)).tail
      (Step.insert exFull6 6 106)).tail
      (Step.insert exFull7 7 107)⟩

/-! Claim theorems. -/

/-- C1: in every state reachable by any interleaving of insert/remove/get on
a map constructed with positive capacity (`get` does not mutate, so only the
mutating steps appear in `Steps`), every key held in some `Occupied` slot is
found by scanning its probe sequence from `home(key) = key % capacity`: some
probe position holds an `Occupied` slot with that key, and no strictly
earlier probe position is `Vacant` — so the key stays reachable by `get`. -/
theorem probe_chain_reachable (m : CustomHashMap) (hr : Reachable m) (key v j : Nat)
    (hj : j < m.entries.length) (hocc : m.entries.getD j Slot.Vacant = Slot.Occupied key v) :
    ∃ i, i < m.capacity ∧ (∃ v', m.slotAt (m.probe key i) = Slot.Occupied key v') ∧
      ∀ i', i' < i → m.slotAt (m.probe key i') ≠ Slot.Vacant := by
  have hInv := reachable_inv m hr
  have hc : 0 < m.capacity := reachable_capacity_pos m hr
  have hjc : j < m.capacity := by
    have := hInv.len_eq
    omega
  obtain ⟨i, hi, hpi⟩ := m.probe_surj key j hc hjc
  have hslot : m.slotAt (m.probe key i) = Slot.Occupied key v := by
    show m.entries.getD (m.probe key i) Slot.Vacant = Slot.Occupied key v
    rw [hpi]
    exact hocc
  exact ⟨i, hi, ⟨v, hslot⟩, fun i' hi' => hInv.chain key v i hi hslot i' hi'⟩

/-- C1 witness: in the reachable state after `insert(1, 10)` on a fresh
capacity-8 map, key 1 occupies slot 1 and is found at probe index 0. -/
theorem probe_chain_reachable_witness :
    (1 < exMap1.entries.length ∧ exMap1.entries.getD 1 Slot.Vacant = Slot.Occupied 1 10) ∧
    (∃ i, i < exMap1.capacity ∧ (∃ v', exMap1.slotAt (exMap1.probe 1 i) = Slot.Occupied 1 v') ∧
      ∀ i', i' < i → exMap1.slotAt (exMap1.probe 1 i') ≠ Slot.Vacant) :=
  ⟨⟨by decide, by decide⟩,
    probe_chain_reachable exMap1 exMap1_reachable 1 10 1 (by decide) (by decide)⟩

/-- C4: in every reachable state, `len()` equals the number of `Occupied`
slots in the entry array and `len() ≤ capacity` (and `0 ≤ len()` holds
because sizes are natural numbers). -/
theorem size_invariant (m : CustomHashMap) (hr : Reachable m) :
    m.len = countOccupied m.entries ∧ m.len ≤ m.capacity := by
  have hInv := reachable_inv m hr
  refine ⟨hInv.size_eq, ?_⟩
  have h1 := list_countP_le_length isOcc m.entries
  have h2 := hInv.len_eq
  have h3 := hInv.size_eq
  show m.size ≤ m.capacity
  unfold countOccupied at h3
  omega

/-- C4 witness at the reachable state after one insert. -/
theorem size_invariant_witness :
    exMap1.len = countOccupied exMap1.entries ∧ exMap1.len ≤ exMap1.capacity :=
  size_invariant exMap1 exMap1_reachable

/-- C5: tombstone monotonicity — starting from any reachable state, no later
sequence of operations ever returns a non-`Vacant` slot to `Vacant`; once a
slot is `Deleted` or `Occupied` it stays non-`Vacant` for the life of the
map (`insert` writes only `Occupied`, `remove` writes only `Deleted`). -/
theorem tombstone_monotonic (m m' : CustomHashMap) (_hr : Reachable m) (hs : Steps m m')
    (j : Nat) (hnv : m.slotAt j ≠ Slot.Vacant) : m'.slotAt j ≠ Slot.Vacant := by
  unfold Steps at hs
  induction hs with
  | refl => exact hnv
  | tail _ hstep ih =>
    cases hstep with
    | insert key value => exact CustomHashMap.insertLoop_fst_not_vacant _ key value _ 0 j ih
    | remove key => exact CustomHashMap.removeLoop_fst_not_vacant _ key _ 0 j ih

/-- C5 witness: slot 1 is `Occupied` after `insert(1, 10)` and stays
non-`Vacant` after `remove(1)` tombstones it. -/
theorem tombstone_monotonic_witness :
    exMap1.slotAt 1 ≠ Slot.Vacant ∧ ((exMap1.remove 1).1).slotAt 1 ≠ Slot.Vacant :=
  ⟨by decide,
    tombstone_monotonic exMap1 ((exMap1.remove 1).1) exMap1_reachable
      (Relation.ReflTransGen.single (Step.remove exMap1 1)) 1 (by decide)⟩

/-- C7: if every probe position of `key` holds an `Occupied` slot with a
different key (a full table for this key's scan), `insert` exhausts all
`capacity` probes and is a silent no-op: the returned map is the input map,
every slot and the size counter included, and the result is absent. -/
theorem full_table_insert_noop (m : CustomHashMap) (key value : Nat)
    (hfull : ∀ i, i < m.capacity → OccOther m key i) :
    m.insert key value = (m, none) := by
  rcases m.insertLoop_cases key value m.capacity 0 (by omega)
    (fun i' hi' => absurd hi' (by omega)) with ⟨a, _, ha2, _, hres⟩ | ⟨_, hres⟩
  · exfalso
    have hother := hfull a ha2
    rw [occOther_iff] at hother
    obtain ⟨k', v', hne, hs⟩ := hother
    rcases hres with ⟨hslot, _⟩ | ⟨v0, hslot, _⟩
    · rcases hslot with h | h <;> rw [h] at hs <;> exact absurd hs (by simp)
    · rw [hslot] at hs
      injection hs with h1 _
      exact hne h1.symm
  · exact hres

/-- C7 witness: a full capacity-2 table with keys 0 and 1; inserting key 4
returns absent and changes nothing. -/
theorem full_table_insert_noop_witness :
    (∀ i, i < exTwo.capacity → OccOther exTwo 4 i) ∧ exTwo.insert 4 7 = (exTwo, none) :=
  ⟨by decide, full_table_insert_noop exTwo 4 7 (by decide)⟩

/-- C9: on every reachable state (constructed with positive capacity), the
entry array keeps length `capacity`, every probed slot index is strictly
below that length, and the checked semantics of all three operations — which
returns `none` exactly where the Rust code would panic (index out of
bounds, `% 0`, `usize` underflow) — returns the ordinary result: no
operation panics. -/
theorem no_panic_in_bounds (m : CustomHashMap) (hr : Reachable m) (key value : Nat) :
    m.entries.length = m.capacity ∧
    (∀ i, i < m.capacity → m.probe key i < m.entries.length) ∧
    m.insertChecked key value = some (m.insert key value) ∧
    m.getChecked key = some (m.get key) ∧
    m.removeChecked key = some (m.remove key) := by
  have hInv := reachable_inv m hr
  have hlen : m.capacity ≤ m.entries.length := by
    have := hInv.len_eq
    omega
  refine ⟨hInv.len_eq, ?_, ?_, ?_, ?_⟩
  · intro i hi
    have := m.probe_lt key i (by omega)
    omega
  · exact m.insertLoopChecked_eq key value hlen m.capacity 0
  · exact m.getLoopChecked_eq key hlen m.capacity 0
  · exact m.removeLoopChecked_eq key hlen hInv.size_eq m.capacity 0

/-- C9 witness at a reachable state, probing key 9 (which collides with the
occupied home slot of key 1). -/
theorem no_panic_in_bounds_witness :
    exMap1.entries.length = exMap1.capacity ∧
    (∀ i, i < exMap1.capacity → exMap1.probe 9 i < exMap1.entries.length) ∧
    exMap1.insertChecked 9 1 = some (exMap1.insert 9 1) ∧
    exMap1.getChecked 9 = some (exMap1.get 9) ∧
    exMap1.removeChecked 9 = some (exMap1.remove 9) :=
  no_panic_in_bounds exMap1 exMap1_reachable 9 1

/-- C10: removing an absent key — one whose probe scan reaches a `Vacant`
slot, or exhausts all `capacity` probes, before finding an `Occupied` slot
with that key, which is exactly the condition under which `get` reports
absent, since `get` implements that same scan — returns absent and leaves
the map (every slot and the size counter, so in particular no new
tombstone) unchanged. -/
theorem remove_absent_noop (m : CustomHashMap) (_hr : Reachable m) (key : Nat)
    (habs : m.get key = none) : m.remove key = (m, none) :=
  m.getLoop_none_removeLoop key m.capacity 0 habs

/-- C10 witness: removing key 3 from a fresh capacity-8 map. -/
theorem remove_absent_noop_witness :
    exMap0.get 3 = none ∧ exMap0.remove 3 = (exMap0, none) :=
  ⟨by decide, remove_absent_noop exMap0 exMap0_reachable 3 (by decide)⟩

/-- C2 counterexample: in the reachable state `insert(1,10); insert(9,90);
remove(1)` on a fresh capacity-8 map, key 9 is present (`get` finds 90 at
slot 2), but `insert(9, 99)` stops first at the `Deleted` slot 1, places a
second entry there, returns absent instead of the prior value 90, and grows
`len()` from 1 to 2 (the spec's own section 8 "open question" hazard). -/
theorem update_semantics_cex :
    Reachable exMap3 ∧ exMap3.get 9 = some 90 ∧
    (exMap3.insert 9 99).2 = none ∧ ¬ (exMap3.insert 9 99).2 = some 90 ∧
    exMap3.len = 1 ∧ (exMap3.insert 9 99).1.len = 2 :=
  ⟨exMap3_reachable, by decide, by decide, by decide, by decide, by decide⟩

/-- C2 amended: re-inserting a present key `key` returns the prior value,
leaves `len()` unchanged, and makes `get` report the new value, provided no
`Vacant` or `Deleted` slot precedes the key's `Occupied` slot in its probe
sequence (every earlier probe position is `Occupied` by a different key).
When a `Deleted` tombstone intervenes, the code instead places a fresh entry
in the tombstone, returns absent, and increments `len()` (see the
counterexample). -/
theorem update_semantics_amended (m : CustomHashMap) (key v w a : Nat) (hr : Reachable m)
    (ha : a < m.capacity) (hslot : m.slotAt (m.probe key a) = Slot.Occupied key w)
    (hbelow : ∀ i', i' < a → OccOther m key i') :
    (m.insert key v).2 = some w ∧ (m.insert key v).1.len = m.len ∧
      (m.insert key v).1.get key = some v := by
  have hInv := reachable_inv m hr
  rcases m.insertLoop_cases key v m.capacity 0 (by omega)
    (fun i' hi' => absurd hi' (by omega)) with ⟨a', _, ha2', ha3', hres⟩ | ⟨hall, hres⟩
  · have haa : a' = a := by
      by_contra hne
      rcases Nat.lt_or_ge a' a with hlt | hge
      · have hother := hbelow a' hlt
        rw [occOther_iff] at hother
        obtain ⟨k', v', hnek, hs⟩ := hother
        rcases hres with ⟨hslot', _⟩ | ⟨v0, hslot', _⟩
        · rcases hslot' with h | h <;> rw [h] at hs <;> exact absurd hs (by simp)
        · rw [hslot'] at hs
          injection hs with h1 _
          exact hnek h1.symm
      · have hlt : a < a' := by omega
        have hother := ha3' a hlt
        rw [occOther_iff] at hother
        obtain ⟨k', v', hnek, hs⟩ := hother
        rw [hslot] at hs
        injection hs with h1 _
        exact hnek h1.symm
    subst haa
    rcases hres with ⟨hslot', heq⟩ | ⟨v0, hslot', heq⟩
    · rcases hslot' with h | h <;> rw [hslot] at h <;> exact absurd h (by simp)
    · have hv0 : v0 = w := by
        rw [hslot] at hslot'
        injection hslot' with _ h2
        exact h2.symm
      subst hv0
      have h1 : m.insert key v
          = (CustomHashMap.mk (m.entries.set (m.probe key a') (Slot.Occupied key v)) m.size m.capacity, some v0) := by
        unfold CustomHashMap.insert
        rw [heq]
      rw [h1]
      exact ⟨rfl, rfl, get_after_set_occupied m m.size key v a' hInv.len_eq ha2' ha3'⟩
  · exfalso
    have hother := hall a ha
    rw [occOther_iff] at hother
    obtain ⟨k', v', hnek, hs⟩ := hother
    rw [hslot] at hs
    injection hs with h1 _
    exact hnek h1.symm

/-- C2 amended witness: updating key 1 in the reachable state after
`insert(1, 10)`: the old value 10 is returned, `len()` is unchanged, and
`get` sees the new value 20. -/
theorem update_semantics_amended_witness :
    (0 < exMap1.capacity ∧ exMap1.slotAt (exMap1.probe 1 0) = Slot.Occupied 1 10) ∧
    ((exMap1.insert 1 20).2 = some 10 ∧ (exMap1.insert 1 20).1.len = exMap1.len ∧
      (exMap1.insert 1 20).1.get 1 = some 20) :=
  ⟨⟨by decide, by decide⟩,
    update_semantics_amended exMap1 1 20 10 0 exMap1_reachable (by decide) (by decide)
      (fun i' hi' => absurd hi' (by omega))⟩

/-- C3 counterexample: in the reachable state `insert(1,10); insert(9,90);
remove(1); insert(9,99)` on a fresh capacity-8 map, key 9 occupies two
slots (the re-insert landed on the tombstone at slot 1 and orphaned the old
entry at slot 2).  `remove(9)` returns 99 and decrements `len()`, but the
subsequent `get(9)` still returns 90 from the orphaned slot instead of
reporting absent. -/
theorem deletion_semantics_cex :
    Reachable exMap4 ∧ exMap4.get 9 = some 99 ∧
    (exMap4.remove 9).2 = some 99 ∧ (exMap4.remove 9).1.len + 1 = exMap4.len ∧
    (exMap4.remove 9).1.get 9 = some 90 ∧ ¬ (exMap4.remove 9).1.get 9 = none :=
  ⟨exMap4_reachable, by decide, by decide, by decide, by decide, by decide⟩

/-- C3 amended: on a reachable state where `get key` returns `w` and at most
one slot holds a live entry for `key` (which rules out the orphaned
duplicates produced by re-inserting over a tombstone, see the
counterexample), `remove key` returns `w`, decrements `len()` by exactly
one, a subsequent `get key` reports absent, and `get` is unchanged on every
other key. -/
theorem deletion_semantics_amended (m : CustomHashMap) (key w : Nat) (hr : Reachable m)
    (hget : m.get key = some w)
    (huniq : ∀ j₁, j₁ < m.entries.length → ∀ j₂, j₂ < m.entries.length →
      hasKey (m.entries.getD j₁ Slot.Vacant) key = true →
      hasKey (m.entries.getD j₂ Slot.Vacant) key = true → j₁ = j₂) :
    (m.remove key).2 = some w ∧ (m.remove key).1.len + 1 = m.len ∧
      (m.remove key).1.get key = none ∧
      ∀ k', k' ≠ key → (m.remove key).1.get k' = m.get k' := by
  have hInv := reachable_inv m hr
  obtain ⟨a, _, ha2, hslot, heq⟩ := m.getLoop_some_removeLoop key w m.capacity 0 hget
  have hc : 0 < m.capacity := by omega
  have hplen : m.probe key a < m.entries.length := by
    have := hInv.len_eq
    have := m.probe_lt key a hc
    omega
  have hsz_pos : 0 < m.size := by
    have hoccp : isOcc (m.entries.getD (m.probe key a) Slot.Vacant) = true := by
      rw [show m.entries.getD (m.probe key a) Slot.Vacant = m.slotAt (m.probe key a) from rfl,
        hslot]
      rfl
    have hpos := list_countP_pos isOcc m.entries _ Slot.Vacant hplen hoccp
    have hsz := hInv.size_eq
    unfold countOccupied at hsz
    omega
  have h1 : m.remove key
      = (CustomHashMap.mk (m.entries.set (m.probe key a) Slot.Deleted) (m.size - 1) m.capacity, some w) := by
    unfold CustomHashMap.remove
    rw [heq]
  rw [h1]
  refine ⟨rfl, ?_, ?_, ?_⟩
  · show m.size - 1 + 1 = m.size
    omega
  · refine CustomHashMap.getLoop_none
      (CustomHashMap.mk (m.entries.set (m.probe key a) Slot.Deleted) (m.size - 1) m.capacity)
      key ?_ ?_ _ 0
    · show m.capacity ≤ (m.entries.set (m.probe key a) Slot.Deleted).length
      rw [List.length_set]
      have := hInv.len_eq
      omega
    · intro j hj
      rw [show (CustomHashMap.mk (m.entries.set (m.probe key a) Slot.Deleted) (m.size - 1) m.capacity).entries
          = m.entries.set (m.probe key a) Slot.Deleted from rfl] at hj ⊢
      rw [List.length_set] at hj
      rw [list_getD_set]
      split_ifs with hcond
      · rfl
      · cases htest : hasKey (m.entries.getD j Slot.Vacant) key with
        | false => rfl
        | true =>
          exfalso
          have hap : hasKey (m.entries.getD (m.probe key a) Slot.Vacant) key = true := by
            rw [show m.entries.getD (m.probe key a) Slot.Vacant = m.slotAt (m.probe key a) from rfl,
              hslot]
            simp [hasKey]
          have hja := huniq j hj (m.probe key a) hplen htest hap
          exact hcond ⟨hja.symm, hplen⟩
  · intro k' hk'
    exact m.getLoop_set_deleted key k' (m.probe key a) w hslot hk' m.capacity 0

/-- C3 amended witness: removing key 1 (present exactly once) from
`insert(1, 10)` on a fresh capacity-8 map. -/
theorem deletion_semantics_amended_witness :
    exMap1.get 1 = some 10 ∧
    ((exMap1.remove 1).2 = some 10 ∧ (exMap1.remove 1).1.len + 1 = exMap1.len ∧
      (exMap1.remove 1).1.get 1 = none ∧
      ∀ k', k' ≠ 1 → (exMap1.remove 1).1.get k' = exMap1.get k') :=
  ⟨by decide,
    deletion_semantics_amended exMap1 1 10 exMap1_reachable (by decide) (by decide)⟩

/-- C6 counterexample: constructing with capacity 0 is not rejected at or
before construction — `with_capacity 0` returns an ordinary map (zero
slots, `size = 0`, `capacity = 0`), and operations on it complete normally
under the checked (panic-modelling) semantics, reporting absent; nothing
fails before use. -/
theorem zero_capacity_cex :
    CustomHashMap.with_capacity 0 = CustomHashMap.mk [] 0 0 ∧
    (CustomHashMap.with_capacity 0).insertChecked 3 5 = some (CustomHashMap.with_capacity 0, none) ∧
    (CustomHashMap.with_capacity 0).getChecked 3 = some none ∧
    (CustomHashMap.with_capacity 0).removeChecked 3 = some (CustomHashMap.with_capacity 0, none) :=
  ⟨by decide, by decide, by decide, by decide⟩

/-- C6 amended: `with_capacity 0` is not rejected; it constructs a zero-slot
map on which every operation is a total no-op returning absent, and the
home-position arithmetic `key % 0` is never evaluated because the probe
loop guard `current_index < capacity` fails immediately — so no panic and
no undefined arithmetic ever occurs, before or after construction. -/
theorem zero_capacity_amended (key value : Nat) :
    (CustomHashMap.with_capacity 0).insertChecked key value
      = some (CustomHashMap.with_capacity 0, none) ∧
    (CustomHashMap.with_capacity 0).getChecked key = some none ∧
    (CustomHashMap.with_capacity 0).removeChecked key
      = some (CustomHashMap.with_capacity 0, none) ∧
    (CustomHashMap.with_capacity 0).insert key value = (CustomHashMap.with_capacity 0, none) ∧
    (CustomHashMap.with_capacity 0).get key = none ∧
    (CustomHashMap.with_capacity 0).remove key = (CustomHashMap.with_capacity 0, none) :=
  ⟨rfl, rfl, rfl, rfl, rfl, rfl⟩

/-- C8 counterexample: fill a fresh capacity-8 map with keys 0..7, then
insert the absent key 8 (never previously inserted).  The insert returns
absent as the claim says, but the immediately following `get 8` returns
absent as well, not the inserted value 99: the full-table insert was a
silent no-op. -/
theorem round_trip_cex :
    Reachable exFull8 ∧ exFull8.get 8 = none ∧ (exFull8.insert 8 99).2 = none ∧
    (exFull8.insert 8 99).1.get 8 = none ∧ ¬ (exFull8.insert 8 99).1.get 8 = some 99 :=
  ⟨exFull8_reachable, by decide, by decide, by decide, by decide⟩

/-- C8 amended: on a reachable state where `key` is absent (`get` reports
absent) and some probe position of `key` within `capacity` probes is
`Vacant` or `Deleted` (the scan is not blocked by a full table of other
keys), `insert key v` returns absent and an immediately following
`get key` returns `v`.  Without the room hypothesis the insert is a silent
no-op and `get` still reports absent (see the counterexample). -/
theorem round_trip_amended (m : CustomHashMap) (key v : Nat) (hr : Reachable m)
    (habs : m.get key = none)
    (hroom : ∃ i, i < m.capacity ∧
      (m.slotAt (m.probe key i) = Slot.Vacant ∨ m.slotAt (m.probe key i) = Slot.Deleted)) :
    (m.insert key v).2 = none ∧ (m.insert key v).1.get key = some v := by
  have hInv := reachable_inv m hr
  rcases m.insertLoop_cases key v m.capacity 0 (by omega)
    (fun i' hi' => absurd hi' (by omega)) with ⟨a, _, ha2, ha3, hres⟩ | ⟨hall, hres⟩
  · rcases hres with ⟨hslot, heq⟩ | ⟨v0, hslot, heq⟩
    · have h1 : m.insert key v
          = (CustomHashMap.mk (m.entries.set (m.probe key a) (Slot.Occupied key v)) (m.size + 1) m.capacity, none) := by
        unfold CustomHashMap.insert
        rw [heq]
      rw [h1]
      exact ⟨rfl, get_after_set_occupied m (m.size + 1) key v a hInv.len_eq ha2 ha3⟩
    · exfalso
      have hget : m.get key = some v0 :=
        m.getLoop_found key v0 a ha2 hslot m.capacity 0 (by omega) (by omega)
          (fun i' _ hi' => Or.inr (ha3 i' hi'))
      rw [habs] at hget
      exact absurd hget (by simp)
  · exfalso
    obtain ⟨i, hi, hslot⟩ := hroom
    have hother := hall i hi
    rw [occOther_iff] at hother
    obtain ⟨k', v', hne, hs⟩ := hother
    rcases hslot with h | h <;> rw [h] at hs <;> exact absurd hs (by simp)

/-- C8 amended witness: inserting the absent key 5 into a fresh capacity-8
map (its home slot is `Vacant`). -/
theorem round_trip_amended_witness :
    (exMap0.get 5 = none ∧ 0 < exMap0.capacity ∧ exMap0.slotAt (exMap0.probe 5 0) = Slot.Vacant) ∧
    ((exMap0.insert 5 55).2 = none ∧ (exMap0.insert 5 55).1.get 5 = some 55) :=
  ⟨⟨by decide, by decide, by decide⟩,
    round_trip_amended exMap0 5 55 exMap0_reachable (by decide)
      ⟨0, by decide, Or.inl (by decide)⟩⟩
